import Mathlib

/-!
# Verification of the arachnid particle-cleaning core

Shallow embedding of the statistical classification core of the `arachnid`
repository (`arachnid/core/image/analysis.py` and `arachnid/app/diffclean.py`),
together with proofs settling the frozen claims about it.

Numeric values are modelled by `ℚ` (the Python code computes with floats; the
rational model is the exact idealization of that arithmetic).  External
numerical routines that the code calls but whose values do not decide any
claim — `numpy.std` (an irrational square root), the precision matrix produced
by sklearn's covariance estimators, and `scipy.stats.chi2.ppf` — enter the
embedding as explicit function parameters, so every theorem quantifies over
them.  Fallible code paths (Python `assert` failures and numpy shape errors)
are modelled with `Except`.
-/

/-- Python 2 `int(q)`: truncation toward zero (`Int.tdiv` is T-division),
matching CPython's float-to-int conversion. -/
def pyInt (q : ℚ) : ℤ := Int.tdiv q.num q.den

/-- `numpy.max` over a nonempty 1-D array (callers guard emptiness). -/
def listMax (l : List ℚ) : ℚ := l.foldl max (l.headD 0)

/-- `numpy.min` over a nonempty 1-D array. -/
def listMin (l : List ℚ) : ℚ := l.foldl min (l.headD 0)

/-- Insert into an ascending list (auxiliary for the sort used by
`numpy.median`, `numpy.unique` and `numpy.argsort`). -/
def insertAsc {α : Type} [LinearOrder α] (a : α) : List α → List α
  | [] => [a]
  | b :: t => if a ≤ b then a :: b :: t else b :: insertAsc a t

/-- Ascending insertion sort. -/
def sortAsc {α : Type} [LinearOrder α] (l : List α) : List α :=
  l.foldr insertAsc []

theorem insertAsc_perm {α : Type} [LinearOrder α] (a : α) (l : List α) :
    List.Perm (insertAsc a l) (a :: l) := by
  induction l with
  | nil => rfl
  | cons b t ih =>
      by_cases h : a ≤ b
      · simp [insertAsc, h]
      · simp only [insertAsc, if_neg h]
        exact ((ih.cons b).trans (List.Perm.swap a b t))

theorem sortAsc_perm {α : Type} [LinearOrder α] (l : List α) :
    List.Perm (sortAsc l) l := by
  induction l with
  | nil => rfl
  | cons a t ih => exact (insertAsc_perm a (sortAsc t)).trans (ih.cons a)

theorem mem_sortAsc {α : Type} [LinearOrder α] {a : α} {l : List α} :
    a ∈ sortAsc l ↔ a ∈ l := (sortAsc_perm l).mem_iff

/-- `numpy.median` of a 1-D array: middle element of the sorted data for odd
length, the mean of the two middle elements for even length.  (numpy returns
`nan` on an empty array; callers establish nonemptiness.) -/
def npMedian (l : List ℚ) : ℚ :=
  let s := sortAsc l
  let n := s.length
  if n % 2 = 1 then s.getD (n / 2) 0
  else (s.getD (n / 2 - 1) 0 + s.getD (n / 2) 0) / 2

/-- Boolean-mask selection `data[sel]` (numpy fancy indexing with a boolean
array: keeps entries whose mask is `True`, in order). -/
def maskSelect {α : Type} (l : List α) (sel : List Bool) : List α :=
  ((l.zip sel).filter (fun p => p.2)).map (fun p => p.1)

/-- `xrange(start, stop - 1, -1)`: the integers from `start` down to `stop`
inclusive (empty when `start < stop`). -/
def descRange (start stop : ℤ) : List ℤ :=
  (List.range (start + 1 - stop).toNat).map (fun k => start - (k : ℤ))

/-- The iterative clipping loop shared by the 1-D and 2-D branches of
`one_class_selection` (analysis.py lines 210–224): for each `nstd` in the
descending range, recompute the selection with `step`, then perform the
source's `assert(numpy.sum(sel)>0)`, modelled as an `Except.error`. -/
def clipLoop (step : List Bool → ℤ → List Bool) :
    List ℤ → List Bool → Except String (List Bool)
  | [], sel => .ok sel
  | nstd :: rest, sel =>
      let sel2 := step sel nstd
      if 0 < sel2.count true then clipLoop step rest sel2
      else .error "assert numpy.sum(sel) > 0 failed"

/-- One iteration of the 1-D branch of `one_class_selection`: recompute
median and std over `data[sel]`, then select `data < hcut ∧ data > lcut`. -/
def clipStep1 (stdFn : List ℚ → ℚ) (data : List ℚ) (sel : List Bool)
    (nstd : ℤ) : List Bool :=
  let d := maskSelect data sel
  let m := npMedian d
  let s := stdFn d
  let hcut := m + s * (nstd : ℚ)
  let lcut := m - s * (nstd : ℚ)
  data.map (fun x => decide (x < hcut) && decide (lcut < x))

/-- `analysis.one_class_selection` on 1-D data.  `stdFn` abstracts
`numpy.std` (a square root, hence irrational in general); `numpy.max` on an
empty array raises, modelled by the `.error` branch. -/
def one_class_selection1 (stdFn : List ℚ → ℚ) (data : List ℚ)
    (nstdMin : ℤ) : Except String (List Bool) :=
  match data with
  | [] => .error "zero-size array to reduction operation maximum"
  | _ :: _ =>
      let m := npMedian data
      let s := stdFn data
      let maxval := listMax data
      let minval := listMin data
      let start := pyInt (min 10 (max ((maxval - m) / s) ((m - minval) / s)))
      clipLoop (clipStep1 stdFn data) (descRange start nstdMin)
        (data.map (fun _ => true))

/-- Number of columns of a row-major matrix (all callers pass rectangular
numpy arrays). -/
def numCols (m : List (List ℚ)) : ℕ := (m.headD []).length

/-- Column `j` of a row-major matrix. -/
def colList (m : List (List ℚ)) (j : ℕ) : List ℚ :=
  m.map (fun r => r.getD j 0)

/-- `numpy.median(m, axis=0)`: per-column medians. -/
def medVec (m : List (List ℚ)) : List ℚ :=
  (List.range (numCols m)).map (fun j => npMedian (colList m j))

/-- `numpy.max(m, axis=0)`: per-column maxima. -/
def colMax (m : List (List ℚ)) : List ℚ :=
  (List.range (numCols m)).map (fun j => listMax (colList m j))

/-- `numpy.min(m, axis=0)`: per-column minima. -/
def colMin (m : List (List ℚ)) : List ℚ :=
  (List.range (numCols m)).map (fun j => listMin (colList m j))

/-- Elementwise subtraction of equal-length vectors. -/
def vecSub (a b : List ℚ) : List ℚ := a.zipWith (· - ·) b

/-- Elementwise division of equal-length vectors. -/
def vecDiv (a b : List ℚ) : List ℚ := a.zipWith (· / ·) b

/-- One iteration of the 2-D branch of `one_class_selection`: recompute
per-column median and std over the selected rows, then keep rows all of whose
coordinates lie strictly inside `(lcut_i, hcut_i)` (the source folds
`logical_and` starting from column 0, which for `numCols ≥ 1` is exactly this
conjunction over all columns). -/
def clipStep2 (stdFn : List (List ℚ) → List ℚ) (data : List (List ℚ))
    (sel : List Bool) (nstd : ℤ) : List Bool :=
  let rows := maskSelect data sel
  let m := medVec rows
  let s := stdFn rows
  let hcut := m.zipWith (fun mi si => mi + si * (nstd : ℚ)) s
  let lcut := m.zipWith (fun mi si => mi - si * (nstd : ℚ)) s
  data.map (fun row =>
    (List.range (numCols data)).all
      (fun i => decide (row.getD i 0 < hcut.getD i 0) &&
                decide (lcut.getD i 0 < row.getD i 0)))

/-- `analysis.one_class_selection` on 2-D data (per-column statistics,
rows selected jointly).  A matrix with no rows or no columns makes the
`numpy.max` in the `start` computation raise. -/
def one_class_selection2 (stdFn : List (List ℚ) → List ℚ)
    (data : List (List ℚ)) (nstdMin : ℤ) : Except String (List Bool) :=
  match data with
  | [] => .error "zero-size array to reduction operation maximum"
  | _ :: _ =>
      if numCols data = 0 then
        .error "zero-size array to reduction operation maximum"
      else
        let m := medVec data
        let s := stdFn data
        let maxval := colMax data
        let minval := colMin data
        let start := pyInt (min 10 (max (listMax (vecDiv (vecSub maxval m) s))
                                        (listMax (vecDiv (vecSub m minval) s))))
        clipLoop (clipStep2 stdFn data) (descRange start nstdMin)
          (data.map (fun _ => true))

theorem clipLoop_ok_pos (step : List Bool → ℤ → List Bool) :
    ∀ (l : List ℤ) (sel mask : List Bool), 0 < sel.count true →
      clipLoop step l sel = .ok mask → 0 < mask.count true := by
  intro l
  induction l with
  | nil =>
      intro sel mask hpos h
      simp only [clipLoop] at h
      cases h
      exact hpos
  | cons nstd rest ih =>
      intro sel mask hpos h
      simp only [clipLoop] at h
      by_cases hc : 0 < (step sel nstd).count true
      · rw [if_pos hc] at h
        exact ih _ _ hc h
      · rw [if_neg hc] at h
        cases h

theorem count_true_map_const {α : Type} (l : List α) :
    ((l.map fun _ => true).count true) = l.length := by
  induction l with
  | nil => rfl
  | cons a t ih => simp [List.count_cons, ih]

/-- C2: `one_class_selection` never returns an all-false mask.  If the
recomputed clipping band would empty the selected set, the iteration's
`assert(numpy.sum(sel)>0)` fails and the error propagates (the `Except.error`
branch of `clipLoop`); on every normal return the mask selects at least one
sample.  Stated for the 1-D branch and the 2-D (per-column) branch of the
source. -/
theorem one_class_selection_never_all_false :
    (∀ (stdFn : List ℚ → ℚ) (data : List ℚ) (nstdMin : ℤ) (mask : List Bool),
        one_class_selection1 stdFn data nstdMin = .ok mask →
        0 < mask.count true) ∧
    (∀ (stdFn : List (List ℚ) → List ℚ) (data : List (List ℚ)) (nstdMin : ℤ)
        (mask : List Bool),
        one_class_selection2 stdFn data nstdMin = .ok mask →
        0 < mask.count true) := by
  constructor
  · intro stdFn data nstdMin mask h
    match data with
    | [] => exact absurd h (by simp [one_class_selection1])
    | a :: t =>
        refine clipLoop_ok_pos _ _ _ _ ?_ h
        rw [count_true_map_const]
        simp
  · intro stdFn data nstdMin mask h
    match data with
    | [] => exact absurd h (by simp [one_class_selection2])
    | a :: t =>
        by_cases hc : numCols (a :: t) = 0
        · exact absurd h (by simp [one_class_selection2, hc])
        · simp only [one_class_selection2, if_neg hc] at h
          refine clipLoop_ok_pos _ _ _ _ ?_ h
          rw [count_true_map_const]
          simp

/-- Witness for C2 at concrete inputs: with a unit `std`, the data `[0,1,2]`
(resp. its column form) yields `start = 1 < 3 = nstd_min`, so the loop body
never runs and the all-true mask is returned. -/
theorem one_class_selection_never_all_false_witness :
    0 < (([true, true, true] : List Bool).count true) ∧
    0 < (([true, true, true] : List Bool).count true) :=
  ⟨one_class_selection_never_all_false.1 (fun _ => 1) [0, 1, 2] 3
      [true, true, true] (by with_unfolding_all rfl),
   one_class_selection_never_all_false.2 (fun _ => [1]) [[0], [1], [2]] 3
      [true, true, true] (by with_unfolding_all rfl)⟩

/-- Dot product of equal-length vectors. -/
def dotQ (a b : List ℚ) : ℚ := (a.zipWith (· * ·) b).sum

/-- `numpy.dot(v, P)` for a row vector `v` and a matrix `P`. -/
def vecMat (v : List ℚ) (P : List (List ℚ)) : List ℚ :=
  (List.range (numCols P)).map (fun j => dotQ v (colList P j))

/-- sklearn-era `EmpiricalCovariance.mahalanobis`: for a centered observation
row `v` and fitted precision `P` it computes `np.sum(np.dot(v, P) * v)`,
the quadratic form of `v` in the inverse metric of the fitted covariance. -/
def quadForm (P : List (List ℚ)) (v : List ℚ) : ℚ := dotQ (vecMat v P) v

/-- `feat = feat[:, :neig]` (diffclean.py line 245): truncation of the
embedded features to the first `neig` columns. -/
def oclTrunc (feat : List (List ℚ)) (neig : ℕ) : List (List ℚ) :=
  feat.map (fun r => r.take neig)

/-- `dist = robust_cov.mahalanobis(feat - numpy.median(feat, 0))`
(diffclean.py line 250): per-sample distance of the truncated feature rows
from the column-wise median, in the inverse metric `P` of the fitted
covariance.  The covariance fit itself (`MinCovDet().fit`, falling back to
`EmpiricalCovariance().fit` on exception) is an external numerical routine;
its resulting precision matrix enters as the parameter `P`. -/
def oclDist (P : List (List ℚ)) (feat : List (List ℚ)) (neig : ℕ) : List ℚ :=
  (oclTrunc feat neig).map
    (fun r => quadForm P (vecSub r (medVec (oclTrunc feat neig))))

/-- `diffclean.one_class_classification` (lines 220–255): truncate to `neig`
columns, compute the robust Mahalanobis-style distances, threshold them at
`cut = chi2.ppf(prob_reject, feat.shape[1])`, and return
`(sel, rsel, dist)` with `rsel = sel`.  `chi2ppf` abstracts
`scipy.stats.chi2.ppf`. -/
def one_class_classification (P : List (List ℚ)) (chi2ppf : ℚ → ℕ → ℚ)
    (feat : List (List ℚ)) (neig : ℕ) (probReject : ℚ) :
    List Bool × List Bool × List ℚ :=
  ((oclDist P feat neig).map
      (fun d => decide (d < chi2ppf probReject (numCols (oclTrunc feat neig)))),
   (oclDist P feat neig).map
      (fun d => decide (d < chi2ppf probReject (numCols (oclTrunc feat neig)))),
   oclDist P feat neig)

theorem getD_map {α β : Type} (g : α → β) (l : List α) (i : ℕ) (d₀ : α)
    (d₁ : β) (h : i < l.length) : (l.map g).getD i d₁ = g (l.getD i d₀) := by
  rw [List.getD_eq_getElem _ _ (by simpa using h), List.getD_eq_getElem _ _ h,
    List.getElem_map]

theorem numCols_oclTrunc (feat : List (List ℚ)) (neig : ℕ) (h : feat ≠ []) :
    numCols (oclTrunc feat neig) = min neig (numCols feat) := by
  match feat with
  | [] => exact absurd rfl h
  | r :: t => simp [numCols, oclTrunc]

/-- C1: for every feature matrix and `prob_reject ∈ (0,1)`, sample `i` is
accepted by `one_class_classification` iff its Mahalanobis-style distance
from the column-wise median of the truncated feature matrix, in the inverse
metric `P` of the fitted covariance, is strictly below
`chi2.ppf(prob_reject, k)` with `k = min neig (numCols feat)` — `neig`
columns, or all available columns when `neig` is at least the embedded
column count. -/
theorem one_class_classification_accept_iff
    (P : List (List ℚ)) (chi2ppf : ℚ → ℕ → ℚ) (feat : List (List ℚ))
    (neig : ℕ) (probReject : ℚ) (hp : 0 < probReject ∧ probReject < 1)
    (i : ℕ) (hi : i < feat.length) :
    (one_class_classification P chi2ppf feat neig probReject).1.getD i false
        = true ↔
      quadForm P (vecSub ((feat.getD i []).take neig)
          (medVec (oclTrunc feat neig))) <
        chi2ppf probReject (min neig (numCols feat)) := by
  have hne : feat ≠ [] := by
    intro h
    rw [h] at hi
    simp at hi
  have hlen : i < (oclTrunc feat neig).length := by
    simpa [oclTrunc] using hi
  have hdlen : i < (oclDist P feat neig).length := by
    simpa [oclDist] using hlen
  have h1 : (one_class_classification P chi2ppf feat neig probReject).1.getD
        i false
      = decide ((oclDist P feat neig).getD i 0 <
          chi2ppf probReject (numCols (oclTrunc feat neig))) := by
    simp only [one_class_classification]
    exact getD_map _ _ _ 0 _ hdlen
  have h2 : (oclDist P feat neig).getD i 0
      = quadForm P (vecSub ((oclTrunc feat neig).getD i [])
          (medVec (oclTrunc feat neig))) := by
    simp only [oclDist]
    exact getD_map _ _ _ [] _ hlen
  have h3 : (oclTrunc feat neig).getD i [] = (feat.getD i []).take neig := by
    simp only [oclTrunc]
    exact getD_map _ _ _ [] _ hi
  rw [h1, h2, h3, numCols_oclTrunc feat neig hne, decide_eq_true_iff]

/-- Witness for C1: a 2-sample, 1-column feature matrix with unit precision;
the first sample's squared distance from the median is `4 < 5 = cutoff`, and
the classifier indeed accepts it. -/
theorem one_class_classification_accept_iff_witness :
    (one_class_classification [[1]] (fun r _ => r * 10) [[0], [4]] 1
        (1/2)).1.getD 0 false = true :=
  (one_class_classification_accept_iff [[1]] (fun r _ => r * 10) [[0], [4]] 1
      (1/2) ⟨by norm_num, by norm_num⟩ 0 (by decide)).mpr
    (by with_unfolding_all rfl)

theorem count_true_map_le {α : Type} (l : List α) (p q : α → Bool)
    (h : ∀ a ∈ l, p a = true → q a = true) :
    (l.map p).count true ≤ (l.map q).count true := by
  induction l with
  | nil => exact Nat.le_refl _
  | cons a t ih =>
      have ih' := ih (fun b hb hpb => h b (List.mem_cons_of_mem a hb) hpb)
      cases hpa : p a with
      | false =>
          cases hqa : q a with
          | false => simpa [List.count_cons, hpa, hqa] using ih'
          | true =>
              simp only [List.map_cons, List.count_cons, hpa, hqa]
              simp
              omega
      | true =>
          have hqa : q a = true := h a (List.mem_cons_self a t) hpa
          simp only [List.map_cons, List.count_cons, hpa, hqa]
          simp
          omega

/-- C8: for a fixed feature matrix (hence fixed fitted precision `P` and
fixed distance vector), increasing `prob_reject` never decreases the number
of accepted samples, because `chi2.ppf` is monotone in its probability
argument (the `hmono` hypothesis records that property of the external
`scipy.stats.chi2.ppf`) and acceptance compares each fixed distance against
the cutoff. -/
theorem one_class_classification_monotone_prob
    (P : List (List ℚ)) (chi2ppf : ℚ → ℕ → ℚ) (feat : List (List ℚ))
    (neig : ℕ) (p q : ℚ) (hpq : p ≤ q)
    (hmono : ∀ (a b : ℚ) (k : ℕ), a ≤ b → chi2ppf a k ≤ chi2ppf b k) :
    (one_class_classification P chi2ppf feat neig p).1.count true ≤
      (one_class_classification P chi2ppf feat neig q).1.count true := by
  simp only [one_class_classification]
  refine count_true_map_le _ _ _ ?_
  intro d _ hd
  rw [decide_eq_true_iff] at hd ⊢
  exact lt_of_lt_of_le hd
    (hmono p q (numCols (oclTrunc feat neig)) hpq)

/-- Witness for C8 at a concrete input: with the monotone cutoff
`r ↦ 10·r`, raising `prob_reject` from `1/2` to `3/4` keeps the accepted
count nondecreasing. -/
theorem one_class_classification_monotone_prob_witness :
    (one_class_classification [[1]] (fun r _ => r * 10) [[0], [4]] 1
        (1/2)).1.count true ≤
      (one_class_classification [[1]] (fun r _ => r * 10) [[0], [4]] 1
        (3/4)).1.count true :=
  one_class_classification_monotone_prob [[1]] (fun r _ => r * 10) [[0], [4]]
    1 (1/2) (3/4) (by norm_num)
    (fun a b _ hab => by
      dsimp only
      nlinarith)

/-- `numpy.cumsum`: entry `i` is the sum of the first `i + 1` entries. -/
def npCumsum (x : List ℚ) : List ℚ :=
  (List.range x.length).map (fun i => (x.take (i + 1)).sum)

/-- `t = d**2/trn.shape[0]; t /= t.sum()` (pca, analysis.py lines 53–54):
the singular values normalized into a variance spectrum. -/
def normSpec (d : List ℚ) (n : ℕ) : List ℚ :=
  ((d.map (fun v => v ^ 2 / (n : ℚ))).map
    (fun v => v / (d.map (fun v => v ^ 2 / (n : ℚ))).sum))

theorem length_normSpec (d : List ℚ) (n : ℕ) :
    (normSpec d n).length = d.length := by
  simp [normSpec]

/-- The accumulator fold of `_assess_dimension` (analysis.py lines 102–129):
starting from `max_ll = (0, 0)`, replace the pair whenever the candidate
rank's log-likelihood is finite and strictly exceeds the stored value. -/
def assessFold (score : ℕ → ℚ) (isfin : ℕ → Bool) (l : List ℕ)
    (acc : ℚ × ℕ) : ℚ × ℕ :=
  l.foldl
    (fun best rank =>
      if isfin rank = true ∧ best.1 < score rank then (score rank, rank)
      else best)
    acc

/-- `_assess_dimension(spectrum, n, p)` (analysis.py lines 72–131): the rank
stored by the fold over all candidate ranks `0 … len(spectrum) - 1`.  The
per-rank Minka log-likelihood `ll` is computed by the source in floating
point from logs and `gammaln`; it enters the embedding as the abstract
`score`, with `isfin rank = numpy.isfinite(ll rank)`. -/
def assess_dimension (score : ℕ → ℚ) (isfin : ℕ → Bool) (len : ℕ) : ℕ :=
  (assessFold score isfin (List.range len) ((0 : ℚ), 0)).2

/-- The rank chosen by `pca` before the final clamp (analysis.py lines
55–65): `frac ≥ 1` → `int(frac)`; `frac == 0` → `_assess_dimension(t,n,p)+1`;
`0 < frac < 1` → `numpy.sum(t.cumsum() < frac) + 1`; otherwise the full
spectrum length `len(d)`. -/
def pcaIdxRaw (score : ℕ → ℚ) (isfin : ℕ → Bool) (d : List ℚ) (n : ℕ)
    (frac : ℚ) : ℕ :=
  if 1 ≤ frac then (pyInt frac).toNat
  else if frac = 0 then
    assess_dimension score isfin (normSpec d n).length + 1
  else if 0 < frac then
    ((npCumsum (normSpec d n)).countP (fun c => decide (c < frac))) + 1
  else d.length

/-- The rank returned by `pca` (analysis.py line 67 applies the final clamp
`if idx >= len(d): idx = 1` to the raw choice). -/
def pcaIdx (score : ℕ → ℚ) (isfin : ℕ → Bool) (d : List ℚ) (n : ℕ)
    (frac : ℚ) : ℕ :=
  if d.length ≤ pcaIdxRaw score isfin d n frac then 1
  else pcaIdxRaw score isfin d n frac

/-- C3 counterexample: a centered 4×2 training matrix has a spectrum of
length `min 4 2 = 2`, but with `frac = -1` the raw rank equals the full
spectrum length, so the clamp fires and `pca` returns rank 1, not the full
rank 2 the claim asserts. -/
theorem pca_neg_frac_counterexample :
    pcaIdx (fun _ => 0) (fun _ => false) [2, 1] 4 (-1) = 1 ∧
      min 4 2 = 2 ∧ (1 : ℕ) ≠ 2 := by
  refine ⟨?_, rfl, by decide⟩
  with_unfolding_all rfl

/-- C3 (amended): for `frac < 0`, `pca` first selects the full spectrum
length, and the final degenerate clamp (`idx >= len(d)` → 1) then always
fires, so the returned rank is 1 (this equals the full rank `min(n,p)` only
when the spectrum has length 1). -/
theorem pca_neg_frac_returns_one (score : ℕ → ℚ) (isfin : ℕ → Bool)
    (d : List ℚ) (n : ℕ) (frac : ℚ) (h : frac < 0) :
    pcaIdx score isfin d n frac = 1 := by
  have hraw : pcaIdxRaw score isfin d n frac = d.length := by
    simp only [pcaIdxRaw]
    rw [if_neg (by linarith), if_neg (by exact ne_of_lt h),
      if_neg (by linarith)]
  simp [pcaIdx, hraw]

/-- Witness for the amended C3 at a concrete negative `frac`. -/
theorem pca_neg_frac_returns_one_witness :
    pcaIdx (fun _ => 0) (fun _ => true) [3, 1] 5 (-2) = 1 :=
  pca_neg_frac_returns_one (fun _ => 0) (fun _ => true) [3, 1] 5 (-2)
    (by norm_num)

theorem one_le_pyInt (q : ℚ) (h : 1 ≤ q) : 1 ≤ (pyInt q).toNat := by
  have hq0 : (0 : ℚ) ≤ q := le_trans zero_le_one h
  have hnum : 0 ≤ q.num := Rat.num_nonneg.mpr hq0
  have hden : (0 : ℤ) ≤ (q.den : ℤ) := Int.natCast_nonneg _
  have h1 : Int.tdiv q.num q.den = q.num / q.den := Int.tdiv_eq_ediv hnum hden
  have h2 : (1 : ℤ) ≤ ⌊q⌋ := Int.le_floor.mpr (by exact_mod_cast h)
  rw [Rat.floor_def] at h2
  have : (1 : ℤ) ≤ pyInt q := by rw [pyInt, h1]; exact h2
  omega

/-- C5: for every spectrum of a feature matrix with `rows ≥ 2·cols` (so the
spectrum length is `min rows cols`), in every rank-specification mode the
rank `idx` chosen by `pca` satisfies `1 ≤ idx ≤ min rows cols`, and the
returned eigenvector basis `V[:idx]` has exactly `idx` rows. -/
theorem pcaIdx_bounds (score : ℕ → ℚ) (isfin : ℕ → Bool) (d : List ℚ)
    (V : List (List ℚ)) (n p : ℕ) (frac : ℚ)
    (hd : d.length = min n p) (hV : V.length = d.length)
    (hp1 : 1 ≤ p) (hnp : 2 * p ≤ n) :
    1 ≤ pcaIdx score isfin d n frac ∧
      pcaIdx score isfin d n frac ≤ min n p ∧
      (V.take (pcaIdx score isfin d n frac)).length =
        pcaIdx score isfin d n frac := by
  have hmin : 1 ≤ min n p := by omega
  have hlen1 : 1 ≤ d.length := by omega
  have hraw1 : 1 ≤ pcaIdxRaw score isfin d n frac := by
    simp only [pcaIdxRaw]
    split_ifs with h1 h2 h3
    · exact one_le_pyInt frac h1
    · omega
    · omega
    · omega
  simp only [pcaIdx]
  split_ifs with hcl
  · refine ⟨le_refl 1, hmin, ?_⟩
    rw [List.length_take]
    omega
  · refine ⟨hraw1, by omega, ?_⟩
    rw [List.length_take]
    omega

/-- Witness for C5: a 4×2 matrix (spectrum length 2) with `frac = 1`
(explicit single-component mode) yields rank 1 and a 1-row basis. -/
theorem pcaIdx_bounds_witness :
    1 ≤ pcaIdx (fun _ => 0) (fun _ => true) [2, 1] 4 1 ∧
      pcaIdx (fun _ => 0) (fun _ => true) [2, 1] 4 1 ≤ min 4 2 ∧
      (([[1, 0], [0, 1]] : List (List ℚ)).take
          (pcaIdx (fun _ => 0) (fun _ => true) [2, 1] 4 1)).length =
        pcaIdx (fun _ => 0) (fun _ => true) [2, 1] 4 1 :=
  pcaIdx_bounds (fun _ => 0) (fun _ => true) [2, 1] [[1, 0], [0, 1]] 4 2 1
    (by decide) (by decide) (by decide) (by decide)

theorem assessFold_spec (score : ℕ → ℚ) (isfin : ℕ → Bool) :
    ∀ (l : List ℕ) (acc : ℚ × ℕ),
      acc.1 ≤ (assessFold score isfin l acc).1 ∧
      (assessFold score isfin l acc = acc ∨
        ((assessFold score isfin l acc).2 ∈ l ∧
          isfin (assessFold score isfin l acc).2 = true ∧
          (assessFold score isfin l acc).1 =
            score (assessFold score isfin l acc).2 ∧
          acc.1 < (assessFold score isfin l acc).1)) ∧
      (∀ i ∈ l, isfin i = true → score i ≤ (assessFold score isfin l acc).1) := by
  intro l
  induction l with
  | nil =>
      intro acc
      refine ⟨le_refl _, Or.inl rfl, ?_⟩
      intro i hi
      exact absurd hi (List.not_mem_nil i)
  | cons a t ih =>
      intro acc
      by_cases hup : isfin a = true ∧ acc.1 < score a
      · have hfold : assessFold score isfin (a :: t) acc =
            assessFold score isfin t (score a, a) := by
          simp [assessFold, hup]
        obtain ⟨hle, hb, hc⟩ := ih (score a, a)
        rw [hfold]
        refine ⟨le_trans (le_of_lt hup.2) hle, ?_, ?_⟩
        · cases hb with
          | inl heq =>
              refine Or.inr ⟨?_, ?_, ?_, ?_⟩
              · rw [heq]; exact List.mem_cons_self a t
              · rw [heq]; exact hup.1
              · rw [heq]
              · rw [heq]; exact hup.2
          | inr h =>
              exact Or.inr ⟨List.mem_cons_of_mem a h.1, h.2.1, h.2.2.1,
                lt_of_lt_of_le hup.2 hle⟩
        · intro i hi hf
          rcases List.mem_cons.mp hi with hia | hit
          · rw [hia]; exact hle
          · exact hc i hit hf
      · have hfold : assessFold score isfin (a :: t) acc =
            assessFold score isfin t acc := by
          simp only [assessFold, List.foldl_cons, if_neg hup]
        obtain ⟨hle, hb, hc⟩ := ih acc
        rw [hfold]
        refine ⟨hle, ?_, ?_⟩
        · cases hb with
          | inl heq => exact Or.inl heq
          | inr h => exact Or.inr ⟨List.mem_cons_of_mem a h.1, h.2⟩
        · intro i hi hf
          rcases List.mem_cons.mp hi with hia | hit
          · subst hia
            rcases not_and_or.mp hup with hfin | hlt
            · exact absurd hf hfin
            · exact le_trans (le_of_not_lt hlt) hle
          · exact hc i hit hf

/-- C4 counterexample: with spectrum length 2 and finite scores `0, 1` for
candidate ranks `0, 1`, the fold picks rank 1, the raw rank `2` equals the
spectrum length, the clamp fires, and `pca` returns 1 — the candidate rank
it corresponds to (rank 0) has a strictly smaller finite score than rank 1,
so the returned rank does not maximize the score over the finite-score
candidates. -/
theorem pca_auto_argmax_counterexample :
    pcaIdx (fun i => (i : ℚ)) (fun _ => true) [2, 1] 5 0 = 1 ∧
      1 < ([2, 1] : List ℚ).length ∧
      ((fun i => (i : ℚ)) 0 < (fun i => (i : ℚ)) 1) := by
  refine ⟨?_, by decide, by norm_num⟩
  with_unfolding_all rfl

/-- C4 (amended): in automatic mode (`frac == 0`), provided the rank-0
score is positive whenever it is finite (true of the actual Minka
log-likelihood, whose rank-0 value is `log(2π)/2 + n·p·log(p)/2 > 0`) and
the selected candidate is not clamped (`assess+1 < len(d)`), the rank
returned by `pca` is `assess+1` where `assess` has a finite score that is
maximal among all finite-score candidates; and when no candidate rank has a
finite score the returned rank is 1. -/
theorem pca_auto_rank (score : ℕ → ℚ) (isfin : ℕ → Bool) (d : List ℚ)
    (n : ℕ)
    (h0 : (∃ i, i < d.length ∧ isfin i = true) →
      isfin 0 = true ∧ 0 < score 0) :
    ((∀ i, i < d.length → isfin i = false) → pcaIdx score isfin d n 0 = 1) ∧
    ((∃ i, i < d.length ∧ isfin i = true) →
      assess_dimension score isfin d.length + 1 < d.length →
      (pcaIdx score isfin d n 0 =
          assess_dimension score isfin d.length + 1 ∧
        isfin (assess_dimension score isfin d.length) = true ∧
        ∀ i, i < d.length → isfin i = true →
          score i ≤ score (assess_dimension score isfin d.length))) := by
  have hraw : pcaIdxRaw score isfin d n 0 =
      assess_dimension score isfin d.length + 1 := by
    simp only [pcaIdxRaw, length_normSpec]
    norm_num
  constructor
  · intro hall
    obtain ⟨hle, hb, hc⟩ :=
      assessFold_spec score isfin (List.range d.length) ((0 : ℚ), 0)
    have hassess : assess_dimension score isfin d.length = 0 := by
      cases hb with
      | inl heq =>
          show (assessFold score isfin (List.range d.length)
            ((0 : ℚ), 0)).2 = 0
          rw [heq]
      | inr h =>
          exfalso
          have hfalse := hall _ (List.mem_range.mp h.1)
          rw [h.2.1] at hfalse
          simp at hfalse
    rw [pcaIdx, hraw, hassess]
    split_ifs <;> rfl
  · intro hex hlt
    obtain ⟨hle, hb, hc⟩ :=
      assessFold_spec score isfin (List.range d.length) ((0 : ℚ), 0)
    obtain ⟨hfin0, hpos0⟩ := h0 hex
    have h0len : 0 < d.length := by
      obtain ⟨i0, hi0, _⟩ := hex
      omega
    cases hb with
    | inl heq =>
        exfalso
        have := hc 0 (List.mem_range.mpr h0len) hfin0
        rw [heq] at this
        exact absurd (lt_of_lt_of_le hpos0 this) (lt_irrefl _)
    | inr h =>
        have hres : assess_dimension score isfin d.length =
            (assessFold score isfin (List.range d.length) ((0 : ℚ), 0)).2 :=
          rfl
        refine ⟨?_, ?_, ?_⟩
        · rw [pcaIdx, hraw, if_neg (by omega)]
        · rw [hres]; exact h.2.1
        · intro i hi hf
          have hsc := hc i (List.mem_range.mpr hi) hf
          rw [h.2.2.1] at hsc
          rw [hres]
          exact hsc

/-- Score used by the C4 witness: `2 - i`, maximal at candidate rank 0. -/
def scoreW (i : ℕ) : ℚ := 2 - (i : ℚ)

/-- Finiteness mask used by the C4 witness: every score finite. -/
def finW (_ : ℕ) : Bool := true

/-- Witness for the amended C4: all scores finite, maximum at rank 0, no
clamp; `pca` returns rank `0 + 1 = 1` and it is the finite-score argmax. -/
theorem pca_auto_rank_witness :
    pcaIdx scoreW finW [3, 2, 1] 6 0 =
        assess_dimension scoreW finW ([3, 2, 1] : List ℚ).length + 1 ∧
      finW (assess_dimension scoreW finW ([3, 2, 1] : List ℚ).length) =
        true ∧
      ∀ i, i < ([3, 2, 1] : List ℚ).length → finW i = true →
        scoreW i ≤
          scoreW (assess_dimension scoreW finW ([3, 2, 1] : List ℚ).length) :=
  (pca_auto_rank scoreW finW [3, 2, 1] 6
      (fun _ => ⟨rfl, by norm_num [scoreW]⟩)).2
    ⟨0, by decide, rfl⟩ (by with_unfolding_all decide)

/-- `numpy.argwhere(sel)` for a 1-D boolean array: the indices of the true
entries, in ascending order. -/
def argwhere (sel : List Bool) : List ℕ :=
  (List.range sel.length).filter (fun i => sel.getD i false)

/-- `diffclean.update_selection_dict` (lines 677–696).  The registry
`sel_by_mic` maps a micrograph id to its list of retained particle indices;
for every accepted index `i` (in `argwhere` order) the source appends
`int(label[i, 1]) + 1` to `sel_by_mic.setdefault(int(label[i, 0]), [])`.
The per-particle-list branch appends the same value, so one embedding covers
both. -/
def update_selection_dict (reg : ℕ → List ℤ) (label : List (ℕ × ℤ))
    (sel : List Bool) : ℕ → List ℤ :=
  (argwhere sel).foldl
    (fun r i => fun k =>
      if k = (label.getD i (0, 0)).1 then r k ++ [(label.getD i (0, 0)).2 + 1]
      else r k)
    reg

/-- The particle indices a view's result contributes to micrograph `k`:
the accepted labels with file id `k`, mapped to their 1-based indices. -/
def appendedSel (label : List (ℕ × ℤ)) (sel : List Bool) (k : ℕ) : List ℤ :=
  (((argwhere sel).map (fun i => label.getD i (0, 0))).filter
    (fun e => decide (e.1 = k))).map (fun e => e.2 + 1)

theorem append_fold_eq :
    ∀ (E : List (ℕ × ℤ)) (reg : ℕ → List ℤ) (k : ℕ),
      (E.foldl
        (fun r e => fun k' => if k' = e.1 then r k' ++ [e.2 + 1] else r k')
        reg) k
      = reg k ++ (E.filter (fun e => decide (e.1 = k))).map
          (fun e => e.2 + 1) := by
  intro E
  induction E with
  | nil => intro reg k; simp
  | cons e t ih =>
      intro reg k
      rw [List.foldl_cons, ih, List.filter_cons]
      by_cases hk : e.1 = k
      · rw [if_pos hk.symm, if_pos (by simp [hk])]
        simp
      · rw [if_neg (fun h => hk h.symm), if_neg (by simp [hk])]

theorem update_fold_eq (label : List (ℕ × ℤ)) (sel : List Bool)
    (reg : ℕ → List ℤ) (k : ℕ) :
    update_selection_dict reg label sel k =
      reg k ++ appendedSel label sel k := by
  have hmap : update_selection_dict reg label sel =
      (((argwhere sel).map (fun i => label.getD i (0, 0))).foldl
        (fun r e => fun k' => if k' = e.1 then r k' ++ [e.2 + 1] else r k')
        reg) := by
    rw [update_selection_dict, List.foldl_map]
  rw [hmap, append_fold_eq]
  rfl

/-- C6 counterexample: one accepted particle `(mic 0, slice 5)`; a single
`update` stores index 6 once, a second identical `update` appends it again,
so the registry after two applications differs from the registry after one
(a duplicate index is introduced). -/
theorem update_selection_dict_not_idempotent :
    update_selection_dict (fun _ => []) [(0, 5)] [true] 0 = [6] ∧
      update_selection_dict
        (update_selection_dict (fun _ => []) [(0, 5)] [true])
        [(0, 5)] [true] 0 = [6, 6] := by
  constructor
  · with_unfolding_all rfl
  · with_unfolding_all rfl

/-- C6 (amended): `update_selection_dict` appends this view's accepted
indices to each micrograph's list, so applying it twice with the same view
result appends them twice: the registry after two applications equals the
registry after one with the accepted indices appended again (duplicates are
introduced whenever any particle is accepted; the operation is idempotent
only for an all-false mask). -/
theorem update_selection_dict_twice (reg : ℕ → List ℤ)
    (label : List (ℕ × ℤ)) (sel : List Bool) (k : ℕ) :
    update_selection_dict reg label sel k =
        reg k ++ appendedSel label sel k ∧
      update_selection_dict (update_selection_dict reg label sel) label sel
          k =
        update_selection_dict reg label sel k ++ appendedSel label sel k :=
  ⟨update_fold_eq label sel reg k,
   update_fold_eq label sel (update_selection_dict reg label sel) k⟩

/-- Ascending insertion by particle count (auxiliary for the
`numpy.argsort(count)` of `init_root`; `argsort` is unstable, so only the
multiset of kept views is specified). -/
def insertByCount (a : ℕ × ℕ) : List (ℕ × ℕ) → List (ℕ × ℕ)
  | [] => [a]
  | b :: t => if a.2 ≤ b.2 then a :: b :: t else b :: insertByCount a t

/-- Views sorted ascending by particle count. -/
def sortByCount (l : List (ℕ × ℕ)) : List (ℕ × ℕ) := l.foldr insertByCount []

/-- The view filter of `init_root` (diffclean.py lines 624–635, normal
`single_view == 0` path): walk the views in descending particle-count order
(`index[::-1]` of `argsort(count)`) and keep a view iff `count[i] > 20`.
A view is `(view id, particle count)`. -/
def keepViews (groups : List (ℕ × ℕ)) : List (ℕ × ℕ) :=
  ((sortByCount groups).reverse).filter (fun g => decide (20 < g.2))

theorem insertByCount_perm (a : ℕ × ℕ) (l : List (ℕ × ℕ)) :
    List.Perm (insertByCount a l) (a :: l) := by
  induction l with
  | nil => rfl
  | cons b t ih =>
      by_cases h : a.2 ≤ b.2
      · simp [insertByCount, h]
      · simp only [insertByCount, if_neg h]
        exact (ih.cons b).trans (List.Perm.swap a b t)

theorem sortByCount_perm (l : List (ℕ × ℕ)) :
    List.Perm (sortByCount l) l := by
  induction l with
  | nil => rfl
  | cons a t ih => exact (insertByCount_perm a (sortByCount t)).trans (ih.cons a)

/-- C7 counterexample: a view with exactly 20 particles — at least the
claimed 20-particle minimum — is nevertheless dropped by the filter, because
the source keeps only `count[i] > 20`. -/
theorem keepViews_counterexample :
    20 ≤ 20 ∧ keepViews [(1, 20)] = [] := by
  constructor
  · decide
  · rfl

/-- C7 (amended): a view is kept by `init_root` iff its particle count is
strictly greater than 20; equivalently a view is skipped (excluded from
classification and the final selection files) iff its count is at most 20. -/
theorem keepViews_mem_iff (groups : List (ℕ × ℕ)) (g : ℕ × ℕ) :
    g ∈ keepViews groups ↔ g ∈ groups ∧ 20 < g.2 := by
  rw [keepViews, List.mem_filter]
  rw [List.mem_reverse]
  rw [(sortByCount_perm groups).mem_iff]
  simp

/-- The positions of value `r` in `ref` starting at offset `i`:
`numpy.argwhere(ref == r).squeeze()` before the squeeze, in ascending
order. -/
def idxOf (r : ℤ) : List ℤ → ℕ → List ℕ
  | [], _ => []
  | a :: t, i => if a = r then i :: idxOf r t (i + 1) else idxOf r t (i + 1)

/-- `numpy.unique(ref)`: the sorted distinct view identifiers. -/
def npUnique (ref : List ℤ) : List ℤ := sortAsc ref.dedup

/-- The per-view loop of the per-particle-label branch of
`group_by_reference` (diffclean.py lines 555–557).  For each view `r` the
source builds `[label[i] for i in numpy.argwhere(sel).squeeze()]`; when `r`
occurs exactly once, `squeeze()` collapses the 1×1 index array to a 0-d
array, and iterating over it raises `TypeError: iteration over a 0-d
array` — modelled by the `.error` branch.  (A squeezed `(k, 1)` array with
`k ≠ 1` stays 1-D and iterates fine.) -/
def groupLoopList (label : List (ℕ × ℤ)) (align : List (List ℚ))
    (ref : List ℤ) :
    List ℤ → Except String (List (ℤ × List (ℕ × ℤ) × List (List ℚ)))
  | [] => .ok []
  | r :: rest =>
      if (idxOf r ref 0).length = 1 then
        .error "iteration over a 0-d array"
      else
        match groupLoopList label align ref rest with
        | .error e => .error e
        | .ok g =>
            .ok ((r, (idxOf r ref 0).map (fun i => label.getD i (0, 0)),
              maskSelect align (ref.map (fun x => decide (x = r)))) :: g)

/-- `group_by_reference` with per-particle list labels (diffclean.py lines
549–557): iterate over the unique view identifiers. -/
def group_by_reference_list (label : List (ℕ × ℤ))
    (align : List (List ℚ)) (ref : List ℤ) :
    Except String (List (ℤ × List (ℕ × ℤ) × List (List ℚ))) :=
  groupLoopList label align ref (npUnique ref)

theorem idxOf_length (r : ℤ) :
    ∀ (l : List ℤ) (i : ℕ), (idxOf r l i).length = l.count r := by
  intro l
  induction l with
  | nil => intro i; rfl
  | cons a t ih =>
      intro i
      by_cases h : a = r
      · simp [idxOf, h, ih, List.count_cons]
      · simp [idxOf, h, ih, List.count_cons]

theorem mem_npUnique {r : ℤ} {ref : List ℤ} :
    r ∈ npUnique ref ↔ r ∈ ref := by
  rw [npUnique, mem_sortAsc, List.mem_dedup]

theorem groupLoopList_ok_iff (label : List (ℕ × ℤ))
    (align : List (List ℚ)) (ref : List ℤ) :
    ∀ L, (∃ g, groupLoopList label align ref L = .ok g) ↔
      ∀ r ∈ L, ref.count r ≠ 1 := by
  intro L
  induction L with
  | nil => simp [groupLoopList]
  | cons r rest ih =>
      by_cases h1 : (idxOf r ref 0).length = 1
      · simp only [groupLoopList, if_pos h1]
        constructor
        · rintro ⟨g, hg⟩
          cases hg
        · intro hall
          exfalso
          refine hall r (List.mem_cons_self r rest) ?_
          rw [← idxOf_length r ref 0]
          exact h1
      · simp only [groupLoopList, if_neg h1]
        rw [List.forall_mem_cons]
        cases hrec : groupLoopList label align ref rest with
        | error e =>
            constructor
            · rintro ⟨g, hg⟩
              simp at hg
            · intro ⟨_, hall⟩
              exfalso
              obtain ⟨g, hg⟩ := ih.mpr hall
              rw [hrec] at hg
              cases hg
        | ok g0 =>
            constructor
            · intro _
              refine ⟨?_, ih.mp ⟨g0, hrec⟩⟩
              rw [← idxOf_length r ref 0]
              exact h1
            · intro _
              exact ⟨_, rfl⟩

/-- C10: with per-particle list labels, `group_by_reference` succeeds iff
every view identifier occurring in `ref` occurs at least twice; whenever
some view occurs exactly once, the squeezed 0-d index array cannot be
iterated and the call fails with an exception. -/
theorem group_by_reference_list_ok_iff (label : List (ℕ × ℤ))
    (align : List (List ℚ)) (ref : List ℤ) :
    (∃ g, group_by_reference_list label align ref = .ok g) ↔
      ∀ r ∈ ref, 2 ≤ ref.count r := by
  rw [group_by_reference_list, groupLoopList_ok_iff]
  constructor
  · intro h r hr
    have hne := h r (mem_npUnique.mpr hr)
    have hpos : 0 < ref.count r := List.count_pos_iff.mpr hr
    omega
  · intro h r hr
    have := h r (mem_npUnique.mp hr)
    omega

/-- Mean of a list of rationals (`0` for the empty list, since `0/0 = 0`
in `ℚ`). -/
def meanQ (l : List ℚ) : ℚ := l.sum / (l.length : ℚ)

/-- Sum of squared deviations from the mean. -/
def ssd (l : List ℚ) : ℚ := (l.map (fun a => (a - meanQ l) ^ 2)).sum

/-- Population variance of a list: the mean squared deviation from the
mean (what `numpy.var` computes for the prefix). -/
def prefixVar (l : List ℚ) : ℚ := ssd l / (l.length : ℚ)

/-- `m = x.cumsum() / numpy.arange(1, n+1)` (running_variance, analysis.py
line 350): the running means. -/
def rvMean (x : List ℚ) : List ℚ :=
  (npCumsum x).zipWith (· / ·)
    ((List.range x.length).map (fun i : ℕ => ((i : ℚ) + 1)))

/-- `(x[1:] - m[:-1]) * (x[1:] - m[1:])` (lines 352–356): the Welford
product terms. -/
def rvProd (x : List ℚ) : List ℚ :=
  ((x.drop 1).zipWith (· - ·) ((rvMean x).take (x.length - 1))).zipWith
    (· * ·) ((x.drop 1).zipWith (· - ·) ((rvMean x).drop 1))

/-- `analysis.running_variance` (lines 326–359): cumulative sums of the
Welford products divided by `numpy.arange(2, n+1)`, with `0` prepended for
the singleton prefix. -/
def running_variance (x : List ℚ) : List ℚ :=
  0 :: (npCumsum (rvProd x)).zipWith (· / ·)
    ((List.range (x.length - 1)).map (fun i : ℕ => ((i : ℚ) + 2)))

/-- One step of Welford's incremental recurrence on `(mean, S, count)`:
`S_k = S_{k-1} + (x_k - mean_{k-1})·(x_k - mean_k)`. -/
def welfordStep (st : ℚ × ℚ × ℕ) (a : ℚ) : ℚ × ℚ × ℕ :=
  (st.1 + (a - st.1) / ((st.2.2 + 1 : ℕ) : ℚ),
   st.2.1 + (a - st.1) * (a - (st.1 + (a - st.1) / ((st.2.2 + 1 : ℕ) : ℚ))),
   st.2.2 + 1)

/-- The sum of squared deviations `S` produced by running Welford's
recurrence over a list. -/
def welfordS (l : List ℚ) : ℚ := (l.foldl welfordStep (0, 0, 0)).2.1

theorem meanQ_nil : meanQ [] = 0 := by
  simp [meanQ]

theorem ssd_nil : ssd [] = 0 := rfl

theorem ssd_singleton (a : ℚ) : ssd [a] = 0 := by
  simp [ssd, meanQ]

theorem sum_sub_const (l : List ℚ) (m : ℚ) :
    (l.map (fun x => x - m)).sum = l.sum - (l.length : ℚ) * m := by
  induction l with
  | nil => simp
  | cons b t ih =>
      simp only [List.map_cons, List.sum_cons, ih, List.length_cons]
      push_cast
      ring

theorem sum_sq_shift (l : List ℚ) (m c : ℚ) :
    (l.map (fun x => (x - (m - c)) ^ 2)).sum =
      (l.map (fun x => (x - m) ^ 2)).sum +
        2 * c * (l.map (fun x => x - m)).sum + (l.length : ℚ) * c ^ 2 := by
  induction l with
  | nil => simp
  | cons b t ih =>
      simp only [List.map_cons, List.sum_cons, ih, List.length_cons]
      push_cast
      ring

theorem meanQ_append (l : List ℚ) (a : ℚ) :
    meanQ (l ++ [a]) = (l.sum + a) / ((l.length : ℚ) + 1) := by
  simp only [meanQ, List.sum_append, List.length_append, List.sum_cons,
    List.sum_nil, List.length_cons, List.length_nil]
  push_cast
  ring_nf

/-- The Welford identity: appending `a` increases the sum of squared
deviations by `(a - mean l)·(a - mean (l ++ [a]))`. -/
theorem ssd_append (l : List ℚ) (a : ℚ) :
    ssd (l ++ [a]) = ssd l + (a - meanQ l) * (a - meanQ (l ++ [a])) := by
  by_cases hl : l = []
  · subst hl
    simp [ssd, meanQ]
  · have hn0 : (l.length : ℚ) ≠ 0 := by
      have := List.length_pos.mpr hl
      exact_mod_cast Nat.pos_iff_ne_zero.mp this
    have hn1 : (l.length : ℚ) + 1 ≠ 0 := by positivity
    have hm' : meanQ (l ++ [a]) = (l.sum + a) / ((l.length : ℚ) + 1) :=
      meanQ_append l a
    have hsum0 : (l.map (fun x => x - meanQ l)).sum = 0 := by
      rw [sum_sub_const, meanQ]
      field_simp
    have hshift := sum_sq_shift l (meanQ l) (meanQ l - meanQ (l ++ [a]))
    have hms : meanQ l - (meanQ l - meanQ (l ++ [a])) = meanQ (l ++ [a]) := by
      ring
    rw [hms] at hshift
    have hssd : ssd (l ++ [a]) =
        (l.map (fun x => (x - meanQ (l ++ [a])) ^ 2)).sum +
          (a - meanQ (l ++ [a])) ^ 2 := by
      simp [ssd, List.map_append, List.sum_append]
    rw [hssd, hshift, hsum0]
    rw [ssd]
    rw [hm', meanQ]
    field_simp
    ring

theorem welford_foldl (l : List ℚ) :
    l.foldl welfordStep (0, 0, 0) = (meanQ l, ssd l, l.length) := by
  induction l using List.reverseRecOn with
  | nil => simp [meanQ, ssd]
  | append_singleton l a ih =>
      rw [List.foldl_append, ih]
      have hmean : meanQ l + (a - meanQ l) / ((l.length + 1 : ℕ) : ℚ) =
          meanQ (l ++ [a]) := by
        rw [meanQ_append]
        by_cases hl : l = []
        · subst hl
          simp [meanQ]
        · have hn0 : (l.length : ℚ) ≠ 0 := by
            have := List.length_pos.mpr hl
            exact_mod_cast Nat.pos_iff_ne_zero.mp this
          have hn1 : (l.length : ℚ) + 1 ≠ 0 := by positivity
          rw [meanQ]
          push_cast
          field_simp
          ring
      show (meanQ l + (a - meanQ l) / ((l.length + 1 : ℕ) : ℚ),
        ssd l + (a - meanQ l) *
          (a - (meanQ l + (a - meanQ l) / ((l.length + 1 : ℕ) : ℚ))),
        l.length + 1) = _
      rw [hmean, ← ssd_append]
      simp

theorem getD_zipWith {α β γ : Type} (f : α → β → γ) (a : List α)
    (b : List β) (j : ℕ) (da : α) (db : β) (dc : γ) (ha : j < a.length)
    (hb : j < b.length) :
    (List.zipWith f a b).getD j dc = f (a.getD j da) (b.getD j db) := by
  rw [List.getD_eq_getElem _ _ (by rw [List.length_zipWith]; omega),
    List.getD_eq_getElem _ _ ha, List.getD_eq_getElem _ _ hb,
    List.getElem_zipWith]

theorem getD_range (n j : ℕ) (h : j < n) : (List.range n).getD j 0 = j := by
  rw [List.getD_eq_getElem _ _ (by simpa using h), List.getElem_range]

theorem getD_npCumsum (x : List ℚ) (j : ℕ) (h : j < x.length) :
    (npCumsum x).getD j 0 = (x.take (j + 1)).sum := by
  rw [npCumsum, getD_map _ _ _ 0 _ (by simpa using h), getD_range _ _ h]

theorem getD_drop {α : Type} (l : List α) (k j : ℕ) (d : α)
    (h : k + j < l.length) : (l.drop k).getD j d = l.getD (k + j) d := by
  rw [List.getD_eq_getElem _ _ (by rw [List.length_drop]; omega),
    List.getD_eq_getElem _ _ h, List.getElem_drop]

theorem getD_take {α : Type} (l : List α) (k j : ℕ) (d : α) (hk : j < k)
    (h : j < l.length) : (l.take k).getD j d = l.getD j d := by
  rw [List.getD_eq_getElem _ _ (by rw [List.length_take]; omega),
    List.getD_eq_getElem _ _ h, List.getElem_take]

theorem length_npCumsum (x : List ℚ) : (npCumsum x).length = x.length := by
  simp [npCumsum]

theorem length_rvMean (x : List ℚ) : (rvMean x).length = x.length := by
  rw [rvMean, List.length_zipWith, length_npCumsum, List.length_map,
    List.length_range]
  omega

theorem rvMean_getD (x : List ℚ) (j : ℕ) (h : j < x.length) :
    (rvMean x).getD j 0 = meanQ (x.take (j + 1)) := by
  rw [rvMean,
    getD_zipWith _ _ _ j 0 0 0 (by rw [length_npCumsum]; omega)
      (by simp only [List.length_map, List.length_range]; omega),
    getD_npCumsum _ _ h, getD_map _ _ _ 0 _ (by simpa using h),
    getD_range _ _ h, meanQ, List.length_take,
    Nat.min_eq_left (by omega : j + 1 ≤ x.length)]
  push_cast
  ring_nf

theorem length_rvProd (x : List ℚ) : (rvProd x).length = x.length - 1 := by
  simp only [rvProd, List.length_zipWith, List.length_drop,
    List.length_take, length_rvMean]
  omega

theorem rvProd_getD (x : List ℚ) (j : ℕ) (h : j < x.length - 1) :
    (rvProd x).getD j 0 =
      (x.getD (j + 1) 0 - meanQ (x.take (j + 1))) *
        (x.getD (j + 1) 0 - meanQ (x.take (j + 2))) := by
  have hj1 : j + 1 < x.length := by omega
  have hd : j < (x.drop 1).length := by rw [List.length_drop]; omega
  have ht : j < ((rvMean x).take (x.length - 1)).length := by
    rw [List.length_take, length_rvMean]; omega
  have hdd : j < ((rvMean x).drop 1).length := by
    rw [List.length_drop, length_rvMean]; omega
  have h1j : (1 : ℕ) + j = j + 1 := Nat.add_comm 1 j
  rw [rvProd,
    getD_zipWith _ _ _ j 0 0 0
      (by rw [List.length_zipWith]; omega)
      (by rw [List.length_zipWith]; omega),
    getD_zipWith _ _ _ j 0 0 0 hd ht,
    getD_zipWith _ _ _ j 0 0 0 hd hdd,
    getD_drop x 1 j 0 (by omega),
    getD_take _ _ _ _ (by omega) (by rw [length_rvMean]; omega),
    getD_drop (rvMean x) 1 j 0 (by rw [length_rvMean]; omega),
    h1j, rvMean_getD x j (by omega), rvMean_getD x (j + 1) hj1]

theorem sum_take_rvProd (x : List ℚ) :
    ∀ k, k ≤ x.length - 1 →
      ((rvProd x).take k).sum = ssd (x.take (k + 1)) := by
  intro k
  induction k with
  | zero =>
      intro _
      match x with
      | [] => simp [ssd]
      | a :: t => simp [ssd_singleton]
  | succ k ih =>
      intro hk
      have hk1 : k < (rvProd x).length := by rw [length_rvProd]; omega
      have hkx : k + 1 < x.length := by omega
      rw [List.sum_take_succ _ _ hk1, ih (by omega),
        ← List.getD_eq_getElem _ 0 hk1, rvProd_getD x k (by omega),
        List.getD_eq_getElem _ 0 hkx]
      have htake : x.take (k + 2) = x.take (k + 1) ++ [x[k + 1]] := by
        rw [← List.take_concat_get x (k + 1) hkx, List.concat_eq_append]
      rw [htake, ssd_append, ← htake]

/-- C9: for every sorted nonempty 1-D array `x`, `running_variance x` has
the same length as `x`, starts with `0`, and for every `i ≥ 1` its `i`-th
entry is the variance of the prefix `x[0..i]` (mean squared deviation from
the prefix mean), equivalently `S/(i+1)` where `S` is produced by Welford's
incremental recurrence over that prefix. -/
theorem running_variance_spec (x : List ℚ) (hx : x ≠ [])
    (hsort : List.Sorted (· ≤ ·) x) :
    (running_variance x).length = x.length ∧
      (running_variance x).getD 0 0 = 0 ∧
      ∀ i, 1 ≤ i → i < x.length →
        (running_variance x).getD i 0 = prefixVar (x.take (i + 1)) ∧
        (running_variance x).getD i 0 =
          welfordS (x.take (i + 1)) / (((x.take (i + 1)).length : ℕ) : ℚ) := by
  have hn : 0 < x.length := List.length_pos.mpr hx
  refine ⟨?_, rfl, ?_⟩
  · rw [running_variance, List.length_cons, List.length_zipWith,
      length_npCumsum, length_rvProd, List.length_map, List.length_range]
    omega
  · intro i h1 h2
    obtain ⟨j, rfl⟩ : ∃ j, i = j + 1 := ⟨i - 1, by omega⟩
    have hj : j < x.length - 1 := by omega
    have hcs : j < (npCumsum (rvProd x)).length := by
      rw [length_npCumsum, length_rvProd]; omega
    have hrng : j <
        ((List.range (x.length - 1)).map (fun i : ℕ => ((i : ℚ) + 2))).length := by
      rw [List.length_map, List.length_range]; omega
    have hgd : (running_variance x).getD (j + 1) 0
        = (npCumsum (rvProd x)).getD j 0 / ((j : ℚ) + 2) := by
      rw [running_variance, List.getD_cons_succ,
        getD_zipWith _ _ _ j 0 0 0 hcs hrng,
        getD_map _ _ _ 0 _ (by simpa using hj), getD_range _ _ hj]
    have hsum : (npCumsum (rvProd x)).getD j 0 = ssd (x.take (j + 2)) := by
      rw [getD_npCumsum _ _ (by rw [length_rvProd]; omega),
        sum_take_rvProd x (j + 1) (by omega)]
    constructor
    · rw [hgd, hsum, prefixVar, List.length_take,
        Nat.min_eq_left (by omega : j + 1 + 1 ≤ x.length)]
      push_cast
      ring_nf
    · rw [hgd, hsum]
      have hw : welfordS (x.take (j + 2)) = ssd (x.take (j + 2)) := by
        rw [welfordS, welford_foldl]
      rw [hw, List.length_take,
        Nat.min_eq_left (by omega : j + 1 + 1 ≤ x.length)]
      push_cast
      ring_nf

/-- Witness for C9: on the sorted array `[1, 2, 4]` the last entry of
`running_variance` equals the population variance `14/9` of the whole
array. -/
theorem running_variance_spec_witness :
    (running_variance ([1, 2, 4] : List ℚ)).getD 2 0 =
      prefixVar (([1, 2, 4] : List ℚ).take 3) :=
  ((running_variance_spec [1, 2, 4] (by simp)
      (by decide)).2.2 2 (by norm_num) (by norm_num)).1
